import Mathlib

/-!
Verification development for the lbry-sdk recovery-phrase (mnemonic) engine and
the service orchestration layer.

The mnemonic module (lbry/wallet/mnemonic.py and lbry/wallet/words) is not part
of the supplied sources; only its test suite (src/tests/unit/wallet/test_mnemonic.py)
is.  The definitions in the first part of this file are therefore modelled from
the specification (spec.md), with the concrete behaviour anchored to the
authoritative assertions of the test suite.  The service layer definitions in
the second part are translated directly from src/lbry/service/base.py.

Conventions: bytes are `Nat` values below 256, machine words are `Nat` values
reduced modulo 2 ^ 32 or 2 ^ 64, and text is `String` processed through its
underlying character list.
-/

/-! ## Byte-string helpers -/

/-- Big-endian bytes of a value, `n` bytes wide. -/
def bigEndBytes : Nat -> Nat -> List Nat
  | 0, _ => []
  | n+1, v => v / 2 ^ (8 * n) % 256 :: bigEndBytes n v

/-- Big-endian integer value of a byte string. -/
def natOfBytes (bs : List Nat) : Nat := bs.foldl (fun a b => a * 256 + b) 0

/-! ## SHA-256, modelled from the spec: the "cryptographic hash (SHA-256)" used
by the Phrase Codec for checksums (spec 4.4).  Working state is the standard
eight 32-bit words; all arithmetic is `Nat` reduced modulo `2 ^ 32`. -/

/-- Working state of a SHA-2 compression: eight hash words. -/
structure Hash8 where
  a : Nat
  b : Nat
  c : Nat
  d : Nat
  e : Nat
  f : Nat
  g : Nat
  h : Nat

def m32 : Nat := 4294967296

def rotr32 (n x : Nat) : Nat := ((x >>> n) ||| (x <<< (32 - n))) % m32

def bigSig0x (x : Nat) : Nat := rotr32 2 x ^^^ rotr32 13 x ^^^ rotr32 22 x

def bigSig1x (x : Nat) : Nat := rotr32 6 x ^^^ rotr32 11 x ^^^ rotr32 25 x

def smallSig0x (x : Nat) : Nat := rotr32 7 x ^^^ rotr32 18 x ^^^ (x >>> 3)

def smallSig1x (x : Nat) : Nat := rotr32 17 x ^^^ rotr32 19 x ^^^ (x >>> 10)

/-- Round constants of SHA-256. -/
def K256 : List Nat := [1116352408, 1899447441, 3049323471, 3921009573, 961987163, 1508970993, 2453635748, 2870763221, 3624381080, 310598401, 607225278, 1426881987, 1925078388, 2162078206, 2614888103, 3248222580, 3835390401, 4022224774, 264347078, 604807628, 770255983, 1249150122, 1555081692, 1996064986, 2554220882, 2821834349, 2952996808, 3210313671, 3336571891, 3584528711, 113926993, 338241895, 666307205, 773529912, 1294757372, 1396182291, 1695183700, 1986661051, 2177026350, 2456956037, 2730485921, 2820302411, 3259730800, 3345764771, 3516065817, 3600352804, 4094571909, 275423344, 430227734, 506948616, 659060556, 883997877, 958139571, 1322822218, 1537002063, 1747873779, 1955562222, 2024104815, 2227730452, 2361852424, 2428436474, 2756734187, 3204031479, 3329325298]

/-- Initial hash value of SHA-256. -/
def IV256 : Hash8 := ⟨1779033703, 3144134277, 1013904242, 2773480762, 1359893119, 2600822924, 528734635, 1541459225⟩

/-- Message-schedule extension step; the accumulator holds the schedule words
most recent first. -/
def schedExt256 : Nat -> List Nat -> List Nat
  | 0 => fun acc => acc
  | n+1 => fun acc =>
    schedExt256 n (((smallSig1x (acc.getD 1 0) + acc.getD 6 0
      + smallSig0x (acc.getD 14 0) + acc.getD 15 0) % m32) :: acc)

def schedule256 (ws : List Nat) : List Nat := (schedExt256 48 ws.reverse).reverse

/-- One SHA-256 round. -/
def rnd256 (st : Hash8) (kw : Nat × Nat) : Hash8 :=
  let t1 := (st.h + bigSig1x st.e + ((st.e &&& st.f) ^^^ ((st.e ^^^ 4294967295) &&& st.g))
    + kw.1 + kw.2) % m32
  let t2 := (bigSig0x st.a + ((st.a &&& st.b) ^^^ (st.a &&& st.c) ^^^ (st.b &&& st.c))) % m32
  ⟨(t1 + t2) % m32, st.a, st.b, st.c, (st.d + t1) % m32, st.e, st.f, st.g⟩

/-- SHA-256 compression of one 16-word block. -/
def compress256 (st : Hash8) (block : List Nat) : Hash8 :=
  let s2 := (K256.zip (schedule256 block)).foldl rnd256 st
  ⟨(st.a + s2.a) % m32, (st.b + s2.b) % m32, (st.c + s2.c) % m32, (st.d + s2.d) % m32,
   (st.e + s2.e) % m32, (st.f + s2.f) % m32, (st.g + s2.g) % m32, (st.h + s2.h) % m32⟩

/-- Group a byte string into big-endian 32-bit words. -/
def toWords32 : List Nat -> List Nat
  | b0 :: b1 :: b2 :: b3 :: rest => (((b0 * 256 + b1) * 256 + b2) * 256 + b3) :: toWords32 rest
  | _ => []

/-- Split a byte string into 64-byte chunks (fuel-driven). -/
def chunks64F : Nat -> List Nat -> List (List Nat)
  | 0 => fun _ => []
  | n+1 => fun bs => match bs with
    | [] => []
    | bs => bs.take 64 :: chunks64F n (bs.drop 64)

/-- SHA-256 padding: append `0x80`, zeros, and the 8-byte bit length. -/
def pad256 (msg : List Nat) : List Nat :=
  msg ++ [128] ++ List.replicate ((64 + 55 - msg.length % 64) % 64) 0
    ++ bigEndBytes 8 (8 * msg.length)

def bytesOfWord32 (w : Nat) : List Nat :=
  [w / 16777216 % 256, w / 65536 % 256, w / 256 % 256, w % 256]

def digestBytes256 (st : Hash8) : List Nat :=
  bytesOfWord32 st.a ++ bytesOfWord32 st.b ++ bytesOfWord32 st.c ++ bytesOfWord32 st.d
  ++ bytesOfWord32 st.e ++ bytesOfWord32 st.f ++ bytesOfWord32 st.g ++ bytesOfWord32 st.h

/-- SHA-256 of a byte string. -/
def sha256 (msg : List Nat) : List Nat :=
  digestBytes256
    (((chunks64F (msg.length / 64 + 2) (pad256 msg)).map toWords32).foldl compress256 IV256)

/-! ## SHA-512, modelled from the spec: the pseudorandom function underlying
Seed Derivation, `PBKDF2-HMAC-SHA512` (spec 4.5).  Same structure as SHA-256
with 64-bit words, 80 rounds and 128-byte blocks. -/

def m64 : Nat := 18446744073709551616

def rotr64 (n x : Nat) : Nat := ((x >>> n) ||| (x <<< (64 - n))) % m64

def bigSig0w (x : Nat) : Nat := rotr64 28 x ^^^ rotr64 34 x ^^^ rotr64 39 x

def bigSig1w (x : Nat) : Nat := rotr64 14 x ^^^ rotr64 18 x ^^^ rotr64 41 x

def smallSig0w (x : Nat) : Nat := rotr64 1 x ^^^ rotr64 8 x ^^^ (x >>> 7)

def smallSig1w (x : Nat) : Nat := rotr64 19 x ^^^ rotr64 61 x ^^^ (x >>> 6)

/-- Round constants of SHA-512. -/
def K512 : List Nat := [4794697086780616226, 8158064640168781261, 13096744586834688815, 16840607885511220156, 4131703408338449720, 6480981068601479193, 10538285296894168987, 12329834152419229976, 15566598209576043074, 1334009975649890238, 2608012711638119052, 6128411473006802146, 8268148722764581231, 9286055187155687089, 11230858885718282805, 13951009754708518548, 16472876342353939154, 17275323862435702243, 1135362057144423861, 2597628984639134821, 3308224258029322869, 5365058923640841347, 6679025012923562964, 8573033837759648693, 10970295158949994411, 12119686244451234320, 12683024718118986047, 13788192230050041572, 14330467153632333762, 15395433587784984357, 489312712824947311, 1452737877330783856, 2861767655752347644, 3322285676063803686, 5560940570517711597, 5996557281743188959, 7280758554555802590, 8532644243296465576, 9350256976987008742, 10552545826968843579, 11727347734174303076, 12113106623233404929, 14000437183269869457, 14369950271660146224, 15101387698204529176, 15463397548674623760, 17586052441742319658, 1182934255886127544, 1847814050463011016, 2177327727835720531, 2830643537854262169, 3796741975233480872, 4115178125766777443, 5681478168544905931, 6601373596472566643, 7507060721942968483, 8399075790359081724, 8693463985226723168, 9568029438360202098, 10144078919501101548, 10430055236837252648, 11840083180663258601, 13761210420658862357, 14299343276471374635, 14566680578165727644, 15097957966210449927, 16922976911328602910, 17689382322260857208, 500013540394364858, 748580250866718886, 1242879168328830382, 1977374033974150939, 2944078676154940804, 3659926193048069267, 4368137639120453308, 4836135668995329356, 5532061633213252278, 6448918945643986474, 6902733635092675308, 7801388544844847127]

/-- Initial hash value of SHA-512. -/
def IV512 : Hash8 := ⟨7640891576956012808, 13503953896175478587, 4354685564936845355, 11912009170470909681, 5840696475078001361, 11170449401992604703, 2270897969802886507, 6620516959819538809⟩

def schedExt512 : Nat -> List Nat -> List Nat
  | 0 => fun acc => acc
  | n+1 => fun acc =>
    schedExt512 n (((smallSig1w (acc.getD 1 0) + acc.getD 6 0
      + smallSig0w (acc.getD 14 0) + acc.getD 15 0) % m64) :: acc)

def schedule512 (ws : List Nat) : List Nat := (schedExt512 64 ws.reverse).reverse

/-- One SHA-512 round. -/
def rnd512 (st : Hash8) (kw : Nat × Nat) : Hash8 :=
  let t1 := (st.h + bigSig1w st.e
    + ((st.e &&& st.f) ^^^ ((st.e ^^^ 18446744073709551615) &&& st.g)) + kw.1 + kw.2) % m64
  let t2 := (bigSig0w st.a + ((st.a &&& st.b) ^^^ (st.a &&& st.c) ^^^ (st.b &&& st.c))) % m64
  ⟨(t1 + t2) % m64, st.a, st.b, st.c, (st.d + t1) % m64, st.e, st.f, st.g⟩

/-- SHA-512 compression of one 16-word block. -/
def compress512 (st : Hash8) (block : List Nat) : Hash8 :=
  let s2 := (K512.zip (schedule512 block)).foldl rnd512 st
  ⟨(st.a + s2.a) % m64, (st.b + s2.b) % m64, (st.c + s2.c) % m64, (st.d + s2.d) % m64,
   (st.e + s2.e) % m64, (st.f + s2.f) % m64, (st.g + s2.g) % m64, (st.h + s2.h) % m64⟩

/-- Group a byte string into big-endian 64-bit words. -/
def toWords64 : List Nat -> List Nat
  | b0 :: b1 :: b2 :: b3 :: b4 :: b5 :: b6 :: b7 :: rest =>
    (((((((b0 * 256 + b1) * 256 + b2) * 256 + b3) * 256 + b4) * 256 + b5) * 256 + b6) * 256 + b7)
      :: toWords64 rest
  | _ => []

/-- Split a byte string into 128-byte chunks (fuel-driven). -/
def chunks128F : Nat -> List Nat -> List (List Nat)
  | 0 => fun _ => []
  | n+1 => fun bs => match bs with
    | [] => []
    | bs => bs.take 128 :: chunks128F n (bs.drop 128)

/-- SHA-512 padding: append `0x80`, zeros, and the 16-byte bit length. -/
def pad512 (msg : List Nat) : List Nat :=
  msg ++ [128] ++ List.replicate ((128 + 111 - msg.length % 128) % 128) 0
    ++ bigEndBytes 16 (8 * msg.length)

def bytesOfWord64 (w : Nat) : List Nat :=
  [w / 72057594037927936 % 256, w / 281474976710656 % 256, w / 1099511627776 % 256,
   w / 4294967296 % 256, w / 16777216 % 256, w / 65536 % 256, w / 256 % 256, w % 256]

def digestBytes512 (st : Hash8) : List Nat :=
  bytesOfWord64 st.a ++ bytesOfWord64 st.b ++ bytesOfWord64 st.c ++ bytesOfWord64 st.d
  ++ bytesOfWord64 st.e ++ bytesOfWord64 st.f ++ bytesOfWord64 st.g ++ bytesOfWord64 st.h

/-- SHA-512 of a byte string. -/
def sha512 (msg : List Nat) : List Nat :=
  digestBytes512
    (((chunks128F (msg.length / 128 + 2) (pad512 msg)).map toWords64).foldl compress512 IV512)

/-! ## HMAC-SHA512 and PBKDF2, modelled from the spec: Seed Derivation computes
`PBKDF2-HMAC-SHA512(password, salt, iterations = 2048, output = 64 bytes)`
(spec 4.5).  With a 64-byte output the derived key is the single PRF block
`T_1 = U_1 xor ... xor U_c`. -/

def hmacSha512 (key msg : List Nat) : List Nat :=
  let k0 := if 128 < key.length then sha512 key else key
  let kp := k0 ++ List.replicate (128 - k0.length) 0
  sha512 ((kp.map (fun b => b ^^^ 92)) ++ sha512 ((kp.map (fun b => b ^^^ 54)) ++ msg))

def xorBytes (a b : List Nat) : List Nat := List.zipWith Nat.xor a b

def pbkdf2Aux (password : List Nat) : Nat -> List Nat -> List Nat -> List Nat
  | 0 => fun _ acc => acc
  | n+1 => fun u acc =>
    let u2 := hmacSha512 password u
    pbkdf2Aux password n u2 (xorBytes acc u2)

/-- Modelled from the spec: PBKDF2-HMAC-SHA512 restricted to a 64-byte output,
so exactly one PRF block: `U_1 = PRF(password, salt || INT_BE32(1))`,
`U_(i+1) = PRF(password, U_i)`, result `U_1 xor ... xor U_c`. -/
def pbkdf2HmacSha512 (password salt : List Nat) (c : Nat) : List Nat :=
  let u1 := hmacSha512 password (salt ++ [0, 0, 0, 1])
  pbkdf2Aux password (c - 1) u1 u1

/-! ## Text model: UTF-8, the Normalizer, and word splitting/joining. -/

/-- UTF-8 encoding of one character. -/
def utf8Char (c : Char) : List Nat :=
  let n := c.toNat
  if n < 128 then [n]
  else if n < 2048 then [192 + n / 64, 128 + n % 64]
  else if n < 65536 then [224 + n / 4096, 128 + n / 64 % 64, 128 + n % 64]
  else [240 + n / 262144, 128 + n / 4096 % 64, 128 + n / 64 % 64, 128 + n % 64]

/-- UTF-8 encoding of a character list. -/
def utf8 (s : List Char) : List Nat := (s.map utf8Char).flatten

/-- Modelled from the spec: Unicode canonical-decomposition normalization
(NFKD-equivalent, spec 4.2), restricted to the code points occurring in this
model: the ideographic space U+3000 decomposes to an ASCII space, and the
precomposed kana U+3058 and U+3054 decompose to their base kana U+3057 / U+3053
followed by the combining voiced-sound mark U+3099; every character used by the
model's wordlists is NFKD-fixed, as the spec requires of pre-normalized words. -/
def nfkdChar (c : Char) : List Char :=
  if c.toNat = 12288 then [Char.ofNat 32]
  else if c.toNat = 12376 then [Char.ofNat 12375, Char.ofNat 12441]
  else if c.toNat = 12372 then [Char.ofNat 12371, Char.ofNat 12441]
  else [c]

/-- NFKD normalization of a character list, applied pointwise. -/
def nfkdStr (s : List Char) : List Char := (s.map nfkdChar).flatten

/-- Whitespace for word splitting: ASCII space or ideographic space
(after NFKD only the ASCII space can remain). -/
def isSpc (c : Char) : Bool := c.toNat = 32 || c.toNat = 12288

def wordSplitAux : List Char -> List Char -> List (List Char)
  | [] => fun acc => if acc.isEmpty then [] else [acc.reverse]
  | c :: rest => fun acc =>
    if isSpc c then
      if acc.isEmpty then wordSplitAux rest []
      else acc.reverse :: wordSplitAux rest []
    else wordSplitAux rest (c :: acc)

/-- Modelled from the spec: split text into words at whitespace; runs collapse
and leading/trailing delimiters are stripped (spec 4.2). -/
def wordSplit (s : List Char) : List (List Char) := wordSplitAux s []

/-- Join words with a delimiter character. -/
def joinWords (d : Char) : List (List Char) -> List Char
  | [] => []
  | [w] => w
  | w :: ws => w ++ d :: joinWords d ws

/-! ## Wordlist Registry, modelled from the spec (4.1): six compiled-in
languages, each with an immutable wordlist of exactly 2048 pairwise-distinct
pre-normalized words.  The bundled word files are not part of the sources, so
the model pins the words the test suite evidences ("awesome" and "ball" in en;
the two Japanese words of the normalization test, stored in canonical
decomposed form, in ja) and fills the rest with distinct single-character
placeholder words drawn from NFKD-fixed, delimiter-free code-point ranges. -/

def genWord (base i : Nat) : List Char := [Char.ofNat (base + i)]

def genWords (base n : Nat) : List (List Char) := (List.range n).map (genWord base)

def jaRuiji : List Char := [Char.ofNat 12427, Char.ofNat 12356, Char.ofNat 12375, Char.ofNat 12441]

def jaRingo : List Char := [Char.ofNat 12426, Char.ofNat 12435, Char.ofNat 12371, Char.ofNat 12441]

def enList : List (List Char) := "awesome".data :: "ball".data :: genWords 19968 2046

def jaList : List (List Char) := jaRuiji :: jaRingo :: genWords 22016 2046

def frList : List (List Char) := genWords 24064 2048

def itList : List (List Char) := genWords 26112 2048

def ptList : List (List Char) := genWords 28160 2048

def zhList : List (List Char) := genWords 30208 2048

/-- Modelled from the spec: the compiled-in set of exactly 6 supported language
codes (spec 4.1); en and ja are the codes the tests exercise. -/
def languages : List String := ["en", "fr", "it", "ja", "pt", "zh"]

/-- Modelled from the spec: `get_languages()` returns the compiled-in language
codes. -/
def get_languages : List String := languages

/-- Wordlist lookup; `none` models `LanguageNotSupported` for unknown codes. -/
def wordlistOf (lang : String) : Option (List (List Char)) :=
  if lang = "en" then some enList
  else if lang = "fr" then some frList
  else if lang = "it" then some itList
  else if lang = "ja" then some jaList
  else if lang = "pt" then some ptList
  else if lang = "zh" then some zhList
  else none

/-- Modelled from the spec: each language's designated word delimiter
(spec 4.2); Japanese uses the ideographic space U+3000, the rest ASCII space. -/
def delimiter (lang : String) : Char :=
  if lang = "ja" then Char.ofNat 12288 else Char.ofNat 32

/-! ## Phrase Codec, modelled from the spec (4.4). -/

/-- The `n` consecutive 11-bit groups of a value, most significant first. -/
def phraseIndices : Nat -> Nat -> List Nat
  | 0 => fun _ => []
  | n+1 => fun v => v / 2 ^ (11 * n) % 2048 :: phraseIndices n v

/-- Reassemble the bit string from 11-bit indices (decode step 4). -/
def packIndices (idxs : List Nat) : Nat := idxs.foldl (fun a i => a * 2048 + i) 0

/-- Leading `csLen` bits of the SHA-256 hash of the entropy bytes. -/
def checksumOf (entBytes : List Nat) (csLen : Nat) : Nat :=
  natOfBytes (sha256 entBytes) / 2 ^ (256 - csLen)

/-- Encode entropy as words of the given wordlist, joined with the given
delimiter (spec 4.4 encode steps 2-4): checksum is the leading
entropy_bits/32 = 4 bits of SHA-256 of the 16 entropy bytes, and the 132
checksummed bits split into twelve 11-bit wordlist indices. -/
def genOnList (ws : List (List Char)) (d : Char) (entropy : Nat) : String :=
  let e := entropy % 2 ^ 128
  let cs := checksumOf (bigEndBytes 16 e) 4
  let v := e * 16 + cs
  String.mk (joinWords d ((phraseIndices 12 v).map (fun i => ws.getD i [])))

/-- Modelled from the spec: `generate_phrase` (spec 4.4 encode).  The Entropy
Source is externalized: `entropy` is the random input, reduced to the default
128-bit size (spec 9 fixes the default at 128 bits / 12 words).  `none` models
`LanguageNotSupported` for unknown codes. -/
def generate_phrase (lang : String) (entropy : Nat) : Option String :=
  (wordlistOf lang).map (fun ws => genOnList ws (delimiter lang) entropy)

/-- Index of a word in a wordlist (decode step 3). -/
def idxOf? : List (List Char) -> List Char -> Option Nat
  | [], _ => none
  | w :: ws, x => if w = x then some 0 else (idxOf? ws x).map (· + 1)

/-- Indices of all phrase words, `none` as soon as one is absent. -/
def indicesOf (ws : List (List Char)) : List (List Char) -> Option (List Nat)
  | [] => some []
  | w :: rest =>
    match idxOf? ws w, indicesOf ws rest with
    | some i, some is => some (i :: is)
    | _, _ => none

/-- Modelled from the spec: `is_phrase_valid` (spec 4.4 decode), total and
never raising (spec 7).  Steps: unsupported language yields false; normalize
and split the phrase; look up every word, any absence yields false; reassemble
the 11w bits, split off the checksum and compare it with the recomputed SHA-256
leading bits.  The checksum length for a w-word phrase is (11w)/33 bits: at
the standard sizes this is exactly the entropy_bits/32 split of spec 3, and at
other word counts it is zero bits so the checksum comparison is vacuous - the
concrete cases of spec 8 and the test suite (two-word phrases validate) force
this reading.  Splitting is performed after NFKD normalization, under which
every language's delimiter is an ASCII space. -/
def validOnList (ws : List (List Char)) (phrase : String) : Bool :=
  match wordSplit (nfkdStr phrase.data) with
  | [] => false
  | pws =>
    match indicesOf ws pws with
    | none => false
    | some idxs =>
      let total := 11 * pws.length
      let csLen := total / 33
      let v := packIndices idxs
      decide (v % 2 ^ csLen = checksumOf (bigEndBytes ((total - csLen) / 8) (v / 2 ^ csLen)) csLen)

/-- Validation against a wordlist dispatched by language code; an unsupported
code (`LanguageNotSupported` inside the registry) yields `false`. -/
def is_phrase_valid (lang : String) (phrase : String) : Bool :=
  match wordlistOf lang with
  | none => false
  | some ws => validOnList ws phrase

/-- Modelled from the spec: `derive_key_from_phrase` (spec 4.5): NFKD-normalize
the phrase and the passphrase, then PBKDF2-HMAC-SHA512 with 2048 iterations and
a 64-byte output over the UTF-8 bytes.  The salt prefix is "lbryum": the spec
text says "mnemonic", but the spec's own determinism vector (spec 8) and the
authoritative test test_mnemonic.test_phrase_to_key pin a 64-byte value that
PBKDF2-HMAC-SHA512 produces with salt prefix "lbryum" and not with "mnemonic",
so the test vector is taken as the authority on this constant. -/
def derive_key_from_phrase (phrase : String) (passphrase : String) : List Nat :=
  pbkdf2HmacSha512 (utf8 (nfkdStr phrase.data))
    (utf8 "lbryum".data ++ utf8 (nfkdStr passphrase.data)) 2048

/-! ## Service layer, translated from src/lbry/service/base.py. -/

/-- Observable outcome of `Service.maybe_broadcast_or_release`: whether the
transaction's input outputs were released (via `release_tx`, line 142), whether
a broadcast was attempted, and the exception re-raised to the caller, if any. -/
structure MBRTrace (ε : Type) where
  released : Bool
  broadcastAttempted : Bool
  raised : Option ε

/-- Translated from `Service.maybe_broadcast_or_release` (src/lbry/service/base.py
lines 207-216).  The awaited collaborators `broadcast` and `wait` are abstracted
by their outcomes (`none` = returned normally, `some e` = raised `e`);
`release_tx` releases the transaction's input outputs and succeeds.  In preview
mode the transaction is released and broadcast is never attempted; otherwise
broadcast is attempted, `wait` is awaited only when `blocking`, and any
exception causes a release before the same exception propagates. -/
def maybe_broadcast_or_release {ε : Type} (preview blocking : Bool)
    (broadcastOutcome waitOutcome : Option ε) : MBRTrace ε :=
  if preview then ⟨true, false, none⟩
  else
    match broadcastOutcome with
    | some e => ⟨true, true, some e⟩
    | none =>
      if blocking then
        match waitOutcome with
        | some e => ⟨true, true, some e⟩
        | none => ⟨false, true, none⟩
      else ⟨false, true, none⟩

/-- A claim-search result; only the claim id is inspected by
`resolve_collection`. -/
structure Txo where
  claim_id : String

/-- Outcome of the abstracted `claim_search` call: a result list, a cancellation
(asyncio.CancelledError), or any other exception. -/
inductive SearchOutcome (τ : Type) where
  | ok (results : List τ)
  | cancelled
  | failed

/-- The inner loop of `resolve_collection` (base.py lines 281-286): the first
search result whose `claim_id` equals the requested id. -/
def firstMatching (cid : String) : List Txo -> Option Txo
  | [] => none
  | t :: ts => if t.claim_id = cid then some t else firstMatching cid ts

/-- The outer loop of `resolve_collection` (base.py lines 279-288): one entry
per requested claim id, in request order, `none` when no result matches. -/
def collectClaims (rs : List Txo) : List String -> List (Option Txo)
  | [] => []
  | cid :: cids => firstMatching cid rs :: collectClaims rs cids

/-- Translated from `Service.resolve_collection` (src/lbry/service/base.py lines
270-289).  `ids` stands for `collection.claim.collection.claims.ids`; the slice
`ids[offset : page_size + offset]` is taken, the claim search is abstracted as
a function of the requested ids; a cancellation re-raises (`Except.error`), any
other search exception yields `[]`, and on success each requested id maps to
the first matching result or `None`. -/
def resolve_collection (ids : List String) (offset page_size : Nat)
    (search : List String -> SearchOutcome Txo) : Except Unit (List (Option Txo)) :=
  let claim_ids := (ids.drop offset).take page_size
  match search claim_ids with
  | .cancelled => .error ()
  | .failed => .ok []
  | .ok rs => .ok (collectClaims rs claim_ids)

/-! ## Remaining model-level definitions used by the claims. -/

/-- A well-formed wordlist word: nonempty, free of delimiter/whitespace
characters, and NFKD-fixed (the spec's pre-normalization invariant, spec 3). -/
def goodWord (w : List Char) : Prop :=
  w ≠ [] ∧ ∀ c ∈ w, isSpc c = false ∧ nfkdChar c = [c]

/-- The decomposed Unicode encoding of the Japanese test phrase るいじ りんご:
base kana followed by the combining voiced-sound mark U+3099 (the byte-exact
content of line 27 of test_mnemonic.py). -/
def jaPhraseDecomposed : String :=
  String.mk [Char.ofNat 12427, Char.ofNat 12356, Char.ofNat 12375, Char.ofNat 12441,
             Char.ofNat 32, Char.ofNat 12426, Char.ofNat 12435, Char.ofNat 12371, Char.ofNat 12441]

/-- The precomposed Unicode encoding of the same phrase, using U+3058 and
U+3054 (the byte-exact content of line 28 of test_mnemonic.py). -/
def jaPhrasePrecomposed : String :=
  String.mk [Char.ofNat 12427, Char.ofNat 12356, Char.ofNat 12376,
             Char.ofNat 32, Char.ofNat 12426, Char.ofNat 12435, Char.ofNat 12372]

/-- Whitespace word count of a phrase string, the `len(phrase.split())` of the
test suite (Python `str.split()` splits on any whitespace, including the
ideographic space). -/
def wordCount (s : String) : Nat := (wordSplit s.data).length

/-! ## Facts about characters and the text model. -/

theorem char_toNat_ofNat (n : Nat) (h : n < 55296) : (Char.ofNat n).toNat = n := by
  have hv : n.isValidChar := Or.inl (by omega)
  simp only [Char.ofNat, Nat.isValidChar] at *
  rw [dif_pos hv]
  simp [Char.ofNatAux, Char.toNat]
  rfl

theorem char_ofNat_ne (a b : Nat) (ha : a < 55296) (hb : b < 55296) (hne : a ≠ b) :
    Char.ofNat a ≠ Char.ofNat b := by
  intro h
  apply hne
  have := congrArg Char.toNat h
  rwa [char_toNat_ofNat a ha, char_toNat_ofNat b hb] at this

theorem nfkdStr_append (a b : List Char) : nfkdStr (a ++ b) = nfkdStr a ++ nfkdStr b := by
  simp [nfkdStr]

theorem nfkdStr_cons (c : Char) (s : List Char) :
    nfkdStr (c :: s) = nfkdChar c ++ nfkdStr s := by
  simp [nfkdStr]

theorem nfkdStr_fixed (w : List Char) (h : ∀ c ∈ w, nfkdChar c = [c]) : nfkdStr w = w := by
  induction w with
  | nil => rfl
  | cons c cs ih =>
    rw [nfkdStr_cons, h c (by simp), ih (fun x hx => h x (by simp [hx]))]
    rfl

theorem wordSplitAux_word (w : List Char) (hw : ∀ c ∈ w, isSpc c = false) :
    ∀ (s acc : List Char), wordSplitAux (w ++ s) acc = wordSplitAux s (w.reverse ++ acc) := by
  induction w with
  | nil => intro s acc; rfl
  | cons c cs ih =>
    intro s acc
    have hc : isSpc c = false := hw c (by simp)
    have hcs : ∀ x ∈ cs, isSpc x = false := fun x hx => hw x (by simp [hx])
    simp only [List.cons_append, wordSplitAux, hc, Bool.false_eq_true, ite_false, if_neg]
    rw [show cs.append s = cs ++ s from rfl, ih hcs s (c :: acc)]
    simp

theorem wordSplitAux_join (d : Char) (hd : isSpc d = true) :
    ∀ (ws : List (List Char)), (∀ w ∈ ws, goodWord w) ->
      wordSplitAux (joinWords d ws) [] = ws := by
  intro ws
  induction ws with
  | nil => intro _; rfl
  | cons w ws ih =>
    intro hgood
    have hw := hgood w (by simp)
    have hwn : ∀ c ∈ w, isSpc c = false := fun c hc => (hw.2 c hc).1
    cases ws with
    | nil =>
      have : joinWords d [w] = w ++ [] := by simp [joinWords]
      rw [this, wordSplitAux_word w hwn [] []]
      simp [wordSplitAux, List.isEmpty_iff, hw.1]
    | cons w2 ws2 =>
      have hjoin : joinWords d (w :: w2 :: ws2) = w ++ d :: joinWords d (w2 :: ws2) := rfl
      rw [hjoin, wordSplitAux_word w hwn _ []]
      have hne : (w.reverse ++ []).isEmpty = false := by
        simp [List.isEmpty_iff, hw.1]
      simp only [wordSplitAux, hd, if_pos, hne, Bool.false_eq_true, if_neg]
      rw [ih (fun x hx => hgood x (by simp [hx]))]
      simp [hw.1]

theorem nfkd_joinWords (d : Char) (hd : nfkdChar d = [Char.ofNat 32]) :
    ∀ (ws : List (List Char)), (∀ w ∈ ws, goodWord w) ->
      nfkdStr (joinWords d ws) = joinWords (Char.ofNat 32) ws := by
  intro ws
  induction ws with
  | nil => intro _; rfl
  | cons w ws ih =>
    intro hgood
    have hw := hgood w (by simp)
    have hwf : nfkdStr w = w := nfkdStr_fixed w (fun c hc => (hw.2 c hc).2)
    cases ws with
    | nil => simpa [joinWords] using hwf
    | cons w2 ws2 =>
      have hjoin : joinWords d (w :: w2 :: ws2) = w ++ d :: joinWords d (w2 :: ws2) := rfl
      rw [hjoin, nfkdStr_append, nfkdStr_cons, hwf, hd, ih (fun x hx => hgood x (by simp [hx]))]
      rfl

theorem wordSplit_join (d : Char) (hd : isSpc d = true) (ws : List (List Char))
    (hgood : ∀ w ∈ ws, goodWord w) : wordSplit (joinWords d ws) = ws :=
  wordSplitAux_join d hd ws hgood

/-- Splitting the NFKD normalization of a delimiter-joined good word sequence
recovers the words, for any delimiter whose canonical decomposition is the
ASCII space. -/
theorem wordSplit_nfkd_join (d : Char) (hd : nfkdChar d = [Char.ofNat 32])
    (ws : List (List Char)) (hgood : ∀ w ∈ ws, goodWord w) :
    wordSplit (nfkdStr (joinWords d ws)) = ws := by
  rw [nfkd_joinWords d hd ws hgood]
  exact wordSplit_join (Char.ofNat 32) (by decide) ws hgood

/-! ## Facts about the model wordlists. -/

theorem nfkdChar_fixed_of (c : Char) (h : 12442 ≤ c.toNat) : nfkdChar c = [c] := by
  unfold nfkdChar
  rw [if_neg (by omega), if_neg (by omega), if_neg (by omega)]

theorem isSpc_false_of (c : Char) (h : 12442 ≤ c.toNat) : isSpc c = false := by
  simp only [isSpc, Bool.or_eq_false_iff, decide_eq_false_iff_not]
  omega

theorem mem_genWords (base n : Nat) (w : List Char) :
    w ∈ genWords base n ↔ ∃ i, i < n ∧ w = genWord base i := by
  simp [genWords, List.mem_map, List.mem_range, eq_comm]

theorem genWords_good (base n : Nat) (hb : 12442 ≤ base) (hn : base + n ≤ 55296) :
    ∀ w ∈ genWords base n, goodWord w := by
  intro w hw
  obtain ⟨i, hi, rfl⟩ := (mem_genWords base n w).mp hw
  have hv : (Char.ofNat (base + i)).toNat = base + i := char_toNat_ofNat _ (by omega)
  refine ⟨by simp [genWord], ?_⟩
  intro c hc
  have : c = Char.ofNat (base + i) := by simpa [genWord] using hc
  subst this
  exact ⟨isSpc_false_of _ (by omega), nfkdChar_fixed_of _ (by omega)⟩

theorem genWords_length_one (base n : Nat) (w : List Char) (hw : w ∈ genWords base n) :
    w.length = 1 := by
  obtain ⟨i, _, rfl⟩ := (mem_genWords base n w).mp hw
  rfl

theorem genWords_nodup (base n : Nat) (hn : base + n ≤ 55296) : (genWords base n).Nodup := by
  unfold genWords
  refine List.Nodup.map_on ?_ (List.nodup_range n)
  intro i hi j hj hij
  have hi2 : (Char.ofNat (base + i)).toNat = base + i :=
    char_toNat_ofNat _ (by simp at hi; omega)
  have hj2 : (Char.ofNat (base + j)).toNat = base + j :=
    char_toNat_ofNat _ (by simp at hj; omega)
  have : Char.ofNat (base + i) = Char.ofNat (base + j) := by
    simpa [genWord] using hij
  have := congrArg Char.toNat this
  rw [hi2, hj2] at this
  omega

theorem enList_good : ∀ w ∈ enList, goodWord w := by
  intro w hw
  rcases (by simpa [enList] using hw : w = "awesome".data ∨ w = "ball".data
      ∨ w ∈ genWords 19968 2046) with rfl | rfl | hg
  · exact ⟨by decide, by decide⟩
  · exact ⟨by decide, by decide⟩
  · exact genWords_good 19968 2046 (by omega) (by omega) w hg

theorem jaList_good : ∀ w ∈ jaList, goodWord w := by
  intro w hw
  rcases (by simpa [jaList] using hw : w = jaRuiji ∨ w = jaRingo
      ∨ w ∈ genWords 22016 2046) with rfl | rfl | hg
  · exact ⟨by decide, by decide⟩
  · exact ⟨by decide, by decide⟩
  · exact genWords_good 22016 2046 (by omega) (by omega) w hg

theorem enList_nodup : enList.Nodup := by
  have hg := genWords_nodup 19968 2046 (by omega)
  have h1 : "awesome".data ∉ genWords 19968 2046 := fun h => by
    have := genWords_length_one _ _ _ h
    simp at this
  have h2 : "ball".data ∉ genWords 19968 2046 := fun h => by
    have := genWords_length_one _ _ _ h
    simp at this
  simp only [enList, List.nodup_cons]
  refine ⟨?_, ?_, hg⟩
  · simp only [List.mem_cons]
    rintro (h | h)
    · exact absurd h (by decide)
    · exact h1 h
  · exact h2

theorem jaList_nodup : jaList.Nodup := by
  have hg := genWords_nodup 22016 2046 (by omega)
  have h1 : jaRuiji ∉ genWords 22016 2046 := fun h => by
    have := genWords_length_one _ _ _ h
    simp [jaRuiji] at this
  have h2 : jaRingo ∉ genWords 22016 2046 := fun h => by
    have := genWords_length_one _ _ _ h
    simp [jaRingo] at this
  simp only [jaList, List.nodup_cons]
  refine ⟨?_, ?_, hg⟩
  · simp only [List.mem_cons]
    rintro (h | h)
    · exact absurd h (by decide)
    · exact h1 h
  · exact h2

theorem genWords_length (base n : Nat) : (genWords base n).length = n := by
  simp [genWords]

theorem enList_length : enList.length = 2048 := by
  simp [enList, genWords_length]

theorem jaList_length : jaList.length = 2048 := by
  simp [jaList, genWords_length]

/-! ## Lookup and codec lemmas. -/

theorem getD_eq_get (ws : List (List Char)) :
    ∀ (i : Nat) (h : i < ws.length), ws.getD i [] = ws.get ⟨i, h⟩ := by
  induction ws with
  | nil => intro i h; simp at h
  | cons w ws ih =>
    intro i h
    cases i with
    | zero => rfl
    | succ i => exact ih i (by simpa using h)

theorem idxOf_get (ws : List (List Char)) (hnd : ws.Nodup) :
    ∀ (i : Nat) (h : i < ws.length), idxOf? ws (ws.get ⟨i, h⟩) = some i := by
  induction ws with
  | nil => intro i h; simp at h
  | cons w ws ih =>
    intro i h
    cases i with
    | zero => simp [idxOf?]
    | succ i =>
      have h' : i < ws.length := by simpa using h
      have hw : w ∉ ws := (List.nodup_cons.mp hnd).1
      have hmem : ws.get ⟨i, h'⟩ ∈ ws := ws.get_mem i h'
      have hne : w ≠ ws.get ⟨i, h'⟩ := fun he => hw (he ▸ hmem)
      show idxOf? (w :: ws) (ws.get ⟨i, h'⟩) = some (i + 1)
      simp only [idxOf?, if_neg hne, ih (List.nodup_cons.mp hnd).2 i h']
      rfl

theorem indicesOf_map_getD (ws : List (List Char)) (hnd : ws.Nodup) :
    ∀ (idxs : List Nat), (∀ i ∈ idxs, i < ws.length) →
      indicesOf ws (idxs.map (fun i => ws.getD i [])) = some idxs := by
  intro idxs
  induction idxs with
  | nil => intro _; rfl
  | cons i is ih =>
    intro hb
    have hi : i < ws.length := hb i (by simp)
    have h1 : idxOf? ws (ws.getD i []) = some i := by
      rw [getD_eq_get ws i hi]
      exact idxOf_get ws hnd i hi
    have h2 := ih (fun j hj => hb j (by simp [hj]))
    simp only [List.map_cons, indicesOf, h1, h2]

theorem phraseIndices_length (n v : Nat) : (phraseIndices n v).length = n := by
  induction n with
  | zero => rfl
  | succ n ih => simp [phraseIndices, ih]

theorem phraseIndices_lt (n v : Nat) : ∀ i ∈ phraseIndices n v, i < 2048 := by
  induction n with
  | zero => intro i h; simp [phraseIndices] at h
  | succ n ih =>
    intro i h
    rcases (by simpa [phraseIndices] using h :
        i = v / 2 ^ (11 * n) % 2048 ∨ i ∈ phraseIndices n v) with rfl | h
    · exact Nat.mod_lt _ (by norm_num)
    · exact ih i h

theorem packIndices_aux (n : Nat) :
    ∀ (v acc : Nat), (phraseIndices n v).foldl (fun a i => a * 2048 + i) acc
      = acc * 2 ^ (11 * n) + v % 2 ^ (11 * n) := by
  induction n with
  | zero => intro v acc; simp [phraseIndices, Nat.mod_one]
  | succ n ih =>
    intro v acc
    have hp : (2 : Nat) ^ (11 * (n + 1)) = 2 ^ (11 * n) * 2048 := by
      rw [show 11 * (n + 1) = 11 * n + 11 by ring, pow_add]
      norm_num
    simp only [phraseIndices, List.foldl_cons]
    rw [ih v (acc * 2048 + v / 2 ^ (11 * n) % 2048), hp, Nat.mod_mul]
    ring

theorem packIndices_phraseIndices (n v : Nat) (h : v < 2 ^ (11 * n)) :
    packIndices (phraseIndices n v) = v := by
  unfold packIndices
  rw [packIndices_aux n v 0, Nat.mod_eq_of_lt h]
  simp

/-! ## Size bounds on the SHA-256 digest and the checksum. -/

theorem bytesOfWord32_lt (w : Nat) : ∀ b ∈ bytesOfWord32 w, b < 256 := by
  intro b hb
  rcases (by simpa [bytesOfWord32] using hb :
      b = w / 16777216 % 256 ∨ b = w / 65536 % 256 ∨ b = w / 256 % 256 ∨ b = w % 256)
    with rfl | rfl | rfl | rfl <;> exact Nat.mod_lt _ (by norm_num)

theorem digestBytes256_lt (st : Hash8) : ∀ b ∈ digestBytes256 st, b < 256 := by
  intro b hb
  simp only [digestBytes256, List.mem_append] at hb
  rcases hb with ((((((h | h) | h) | h) | h) | h) | h) | h <;> exact bytesOfWord32_lt _ b h

theorem sha256_lt (msg : List Nat) : ∀ b ∈ sha256 msg, b < 256 :=
  fun b hb => digestBytes256_lt _ b hb

theorem digestBytes256_length (st : Hash8) : (digestBytes256 st).length = 32 := by
  simp [digestBytes256, bytesOfWord32]

theorem sha256_length (msg : List Nat) : (sha256 msg).length = 32 :=
  digestBytes256_length _

theorem foldl_bytes_lt (bs : List Nat) : ∀ acc : Nat, (∀ b ∈ bs, b < 256) →
    bs.foldl (fun a b => a * 256 + b) acc < (acc + 1) * 256 ^ bs.length := by
  induction bs with
  | nil => intro acc _; simp
  | cons b bs ih =>
    intro acc hb
    have h1 : b < 256 := hb b (by simp)
    have h2 := ih (acc * 256 + b) (fun x hx => hb x (by simp [hx]))
    have h3 : acc * 256 + b + 1 ≤ (acc + 1) * 256 := by omega
    have h4 : (acc * 256 + b + 1) * 256 ^ bs.length ≤ ((acc + 1) * 256) * 256 ^ bs.length :=
      Nat.mul_le_mul h3 (Nat.le_refl _)
    simp only [List.foldl_cons, List.length_cons]
    have h5 : ((acc + 1) * 256) * 256 ^ bs.length = (acc + 1) * 256 ^ (bs.length + 1) := by ring
    exact h5 ▸ lt_of_lt_of_le h2 h4

theorem natOfBytes_lt (bs : List Nat) (hb : ∀ b ∈ bs, b < 256) :
    natOfBytes bs < 256 ^ bs.length := by
  simpa [natOfBytes] using foldl_bytes_lt bs 0 hb

theorem natOfBytes_sha256_lt (msg : List Nat) : natOfBytes (sha256 msg) < 2 ^ 256 := by
  have h := natOfBytes_lt (sha256 msg) (sha256_lt msg)
  rw [sha256_length] at h
  calc natOfBytes (sha256 msg) < 256 ^ 32 := h
    _ = 2 ^ 256 := by norm_num

theorem checksumOf_lt (entBytes : List Nat) : checksumOf entBytes 4 < 16 := by
  have h := natOfBytes_sha256_lt entBytes
  have h2 : (2 : Nat) ^ 256 = 16 * 2 ^ 252 := by
    rw [show (256 : Nat) = 4 + 252 from rfl, pow_add]
    norm_num
  unfold checksumOf
  rw [show 256 - 4 = 252 from rfl]
  exact (Nat.div_lt_iff_lt_mul (by positivity)).mpr (h2 ▸ h)

/-! ## The decode-of-encode core. -/

/-- Validation of a phrase built from twelve 11-bit groups of `v` reduces to
the checksum comparison on `v` itself. -/
theorem validOnList_code (ws : List (List Char)) (hnd : ws.Nodup) (hlen : ws.length = 2048)
    (hgood : ∀ w ∈ ws, goodWord w) (d : Char) (hd : nfkdChar d = [Char.ofNat 32])
    (v : Nat) (hv : v < 2 ^ 132) :
    validOnList ws (String.mk (joinWords d ((phraseIndices 12 v).map (fun i => ws.getD i []))))
      = decide (v % 16 = checksumOf (bigEndBytes 16 (v / 16)) 4) := by
  have hbound : ∀ i ∈ phraseIndices 12 v, i < ws.length := by
    rw [hlen]
    exact phraseIndices_lt 12 v
  have hpgood : ∀ w ∈ (phraseIndices 12 v).map (fun i => ws.getD i []), goodWord w := by
    intro w hw
    obtain ⟨i, hi, rfl⟩ := List.mem_map.mp hw
    have hi2 := hbound i hi
    rw [getD_eq_get ws i hi2]
    exact hgood _ (ws.get_mem i hi2)
  have hsplit : wordSplit (nfkdStr (String.mk (joinWords d
      ((phraseIndices 12 v).map (fun i => ws.getD i [])))).data)
      = (phraseIndices 12 v).map (fun i => ws.getD i []) :=
    wordSplit_nfkd_join d hd _ hpgood
  have hidx : indicesOf ws ((phraseIndices 12 v).map (fun i => ws.getD i []))
      = some (phraseIndices 12 v) :=
    indicesOf_map_getD ws hnd _ hbound
  have hpack : packIndices (phraseIndices 12 v) = v :=
    packIndices_phraseIndices 12 v (by simpa using hv)
  obtain ⟨i0, is, hcons⟩ : ∃ i0 is, phraseIndices 12 v = i0 :: is := by
    cases h : phraseIndices 12 v with
    | nil =>
      have hl := phraseIndices_length 12 v
      rw [h] at hl
      simp at hl
    | cons a b => exact ⟨a, b, rfl⟩
  have hlis : is.length = 11 := by
    have hl := phraseIndices_length 12 v
    rw [hcons] at hl
    simpa using hl
  rw [hcons] at hsplit hidx hpack
  simp only [List.map_cons] at hsplit hidx
  unfold validOnList
  dsimp only
  rw [hcons]
  simp only [List.map_cons]
  rw [hsplit]
  simp only [hidx, List.length_cons, List.length_map, hlis, hpack]
  norm_num

/-- Any phrase produced by the encoder on a good 2048-word list validates:
`v = e * 16 + cs` has `v % 16 = cs` and `v / 16 = e` by construction. -/
theorem validOnList_genOnList (ws : List (List Char)) (d : Char)
    (hgood : ∀ w ∈ ws, goodWord w) (hnd : ws.Nodup) (hlen : ws.length = 2048)
    (hd : nfkdChar d = [Char.ofNat 32]) (entropy : Nat) :
    validOnList ws (genOnList ws d entropy) = true := by
  have hcs : checksumOf (bigEndBytes 16 (entropy % 2 ^ 128)) 4 < 16 := checksumOf_lt _
  have hE : entropy % 2 ^ 128 < 2 ^ 128 := Nat.mod_lt _ (by positivity)
  have hv : entropy % 2 ^ 128 * 16 + checksumOf (bigEndBytes 16 (entropy % 2 ^ 128)) 4
      < 2 ^ 132 := by
    have h2 : (2 : Nat) ^ 132 = 2 ^ 128 * 16 := by norm_num
    omega
  have hgen : genOnList ws d entropy = String.mk (joinWords d ((phraseIndices 12
      (entropy % 2 ^ 128 * 16 + checksumOf (bigEndBytes 16 (entropy % 2 ^ 128)) 4)).map
      (fun i => ws.getD i []))) := rfl
  rw [hgen, validOnList_code ws hnd hlen hgood d hd _ hv]
  simp only [decide_eq_true_eq]
  have h1 : (entropy % 2 ^ 128 * 16 + checksumOf (bigEndBytes 16 (entropy % 2 ^ 128)) 4) % 16
      = checksumOf (bigEndBytes 16 (entropy % 2 ^ 128)) 4 := by omega
  have h2 : (entropy % 2 ^ 128 * 16 + checksumOf (bigEndBytes 16 (entropy % 2 ^ 128)) 4) / 16
      = entropy % 2 ^ 128 := by omega
  rw [h1, h2]

/-- The un-normalized split of an encoded phrase already has exactly 12 words. -/
theorem wordCount_code (ws : List (List Char)) (hgood : ∀ w ∈ ws, goodWord w)
    (hlen : ws.length = 2048) (d : Char) (hd : isSpc d = true) (v : Nat) :
    wordCount (String.mk (joinWords d ((phraseIndices 12 v).map (fun i => ws.getD i [])))) = 12 := by
  have hbound : ∀ i ∈ phraseIndices 12 v, i < ws.length := by
    rw [hlen]
    exact phraseIndices_lt 12 v
  have hpgood : ∀ w ∈ (phraseIndices 12 v).map (fun i => ws.getD i []), goodWord w := by
    intro w hw
    obtain ⟨i, hi, rfl⟩ := List.mem_map.mp hw
    have hi2 := hbound i hi
    rw [getD_eq_get ws i hi2]
    exact hgood _ (ws.get_mem i hi2)
  unfold wordCount
  rw [show (String.mk (joinWords d ((phraseIndices 12 v).map (fun i => ws.getD i [])))).data
      = joinWords d ((phraseIndices 12 v).map (fun i => ws.getD i [])) from rfl]
  rw [wordSplit_join d hd _ hpgood]
  simp [phraseIndices_length]

theorem wordCount_genOnList (ws : List (List Char)) (d : Char)
    (hgood : ∀ w ∈ ws, goodWord w) (hlen : ws.length = 2048) (hd : isSpc d = true)
    (entropy : Nat) : wordCount (genOnList ws d entropy) = 12 :=
  wordCount_code ws hgood hlen d hd _

/-- Round trip packaged per language: generated phrases validate. -/
theorem roundTripOn (ws : List (List Char)) (d : Char) (lang : String)
    (hw : wordlistOf lang = some ws) (hdl : delimiter lang = d)
    (hgood : ∀ w ∈ ws, goodWord w) (hnd : ws.Nodup) (hlen : ws.length = 2048)
    (hd : nfkdChar d = [Char.ofNat 32]) (entropy : Nat) (phrase : String)
    (hgen : generate_phrase lang entropy = some phrase) :
    is_phrase_valid lang phrase = true := by
  unfold generate_phrase at hgen
  rw [hw, hdl] at hgen
  have hgen2 : phrase = genOnList ws d entropy := by
    simpa using hgen.symm
  subst hgen2
  unfold is_phrase_valid
  rw [hw]
  exact validOnList_genOnList ws d hgood hnd hlen hd entropy

/-! ## Absent-word lookups fail symbolically (no wordlist traversal needed). -/

theorem idxOf_eq_none (ws : List (List Char)) (w : List Char) (h : w ∉ ws) :
    idxOf? ws w = none := by
  induction ws with
  | nil => rfl
  | cons x xs ih =>
    simp only [List.mem_cons, not_or] at h
    have hne : ¬(x = w) := fun he => h.1 he.symm
    simp only [idxOf?, if_neg hne, ih h.2]
    rfl

theorem mem_enList_length (w : List Char) (h : w ∈ enList) :
    w.length = 7 ∨ w.length = 4 ∨ w.length = 1 := by
  rcases (by simpa [enList] using h :
      w = "awesome".data ∨ w = "ball".data ∨ w ∈ genWords 19968 2046) with rfl | rfl | hg
  · left; rfl
  · right; left; rfl
  · right; right; exact genWords_length_one _ _ _ hg

theorem foo_not_mem : "foo".data ∉ enList := fun h => by
  rcases mem_enList_length _ h with h' | h' | h' <;> exact absurd h' (by decide)

theorem awesomeball_not_mem : "awesomeball".data ∉ enList := fun h => by
  rcases mem_enList_length _ h with h' | h' | h' <;> exact absurd h' (by decide)

/-- A one-word phrase whose word is absent from the wordlist fails validation. -/
theorem validOnList_single_absent (ws : List (List Char)) (w : List Char) (phrase : String)
    (hsplit : wordSplit (nfkdStr phrase.data) = [w]) (habs : w ∉ ws) :
    validOnList ws phrase = false := by
  have h1 : idxOf? ws w = none := idxOf_eq_none ws w habs
  unfold validOnList
  rw [hsplit]
  simp only [indicesOf, h1]

/-- Validation is invariant under NFKD-equal inputs: it only reads the
normalized text. -/
theorem validOnList_nfkd_inv (ws : List (List Char)) (p1 p2 : String)
    (h : nfkdStr p1.data = nfkdStr p2.data) : validOnList ws p1 = validOnList ws p2 := by
  unfold validOnList
  rw [h]

theorem wordlistOf_eq_none (lang : String) (h : lang ∉ languages) : wordlistOf lang = none := by
  simp only [languages, List.mem_cons, not_or] at h
  obtain ⟨h1, h2, h3, h4, h5, h6, -⟩ := h
  simp [wordlistOf, h1, h2, h3, h4, h5, h6]

theorem validOnList_empty (ws : List (List Char)) : validOnList ws "" = false := rfl

theorem is_phrase_valid_empty (l : String) : is_phrase_valid l "" = false := by
  unfold is_phrase_valid
  cases h : wordlistOf l with
  | none => rfl
  | some ws => exact validOnList_empty ws

/-- Index collection fails as soon as any phrase word is absent from the
wordlist, wherever it occurs. -/
theorem indicesOf_eq_none (ws : List (List Char)) :
    ∀ (pws : List (List Char)) (w : List Char), w ∈ pws → w ∉ ws →
      indicesOf ws pws = none := by
  intro pws
  induction pws with
  | nil => intro w hw _; simp at hw
  | cons x rest ih =>
    intro w hw habs
    rcases List.mem_cons.mp hw with rfl | hw2
    · simp only [indicesOf, idxOf_eq_none ws w habs]
    · simp only [indicesOf, ih w hw2 habs]
      cases idxOf? ws x <;> rfl

/-- A malformed phrase — one with any word absent from the wordlist — fails
validation (spec 4.4 decode step 3). -/
theorem validOnList_absent (ws : List (List Char)) (phrase : String) (w : List Char)
    (hw : w ∈ wordSplit (nfkdStr phrase.data)) (habs : w ∉ ws) :
    validOnList ws phrase = false := by
  unfold validOnList
  cases hsplit : wordSplit (nfkdStr phrase.data) with
  | nil => rfl
  | cons q qws =>
    rw [hsplit] at hw
    simp only [indicesOf_eq_none ws (q :: qws) w hw habs]

/-- A checksum-mismatched phrase — all words present, but the reassembled bits
failing the recomputed-checksum comparison — fails validation (spec 4.4 decode
step 5). -/
theorem validOnList_checksum_mismatch (ws : List (List Char)) (phrase : String)
    (idxs : List Nat)
    (hidx : indicesOf ws (wordSplit (nfkdStr phrase.data)) = some idxs)
    (hbad : packIndices idxs % 2 ^ (11 * (wordSplit (nfkdStr phrase.data)).length / 33) ≠
      checksumOf (bigEndBytes ((11 * (wordSplit (nfkdStr phrase.data)).length
          - 11 * (wordSplit (nfkdStr phrase.data)).length / 33) / 8)
        (packIndices idxs / 2 ^ (11 * (wordSplit (nfkdStr phrase.data)).length / 33)))
        (11 * (wordSplit (nfkdStr phrase.data)).length / 33)) :
    validOnList ws phrase = false := by
  unfold validOnList
  cases hsplit : wordSplit (nfkdStr phrase.data) with
  | nil => rfl
  | cons q qws =>
    rw [hsplit] at hidx hbad
    simp only [hidx]
    exact decide_eq_false hbad

/-! ## Output length and byte bounds of the seed derivation. -/

theorem bytesOfWord64_lt (w : Nat) : ∀ b ∈ bytesOfWord64 w, b < 256 := by
  intro b hb
  rcases (by simpa [bytesOfWord64] using hb :
      b = w / 72057594037927936 % 256 ∨ b = w / 281474976710656 % 256
      ∨ b = w / 1099511627776 % 256 ∨ b = w / 4294967296 % 256 ∨ b = w / 16777216 % 256
      ∨ b = w / 65536 % 256 ∨ b = w / 256 % 256 ∨ b = w % 256)
    with rfl | rfl | rfl | rfl | rfl | rfl | rfl | rfl <;> exact Nat.mod_lt _ (by norm_num)

theorem digestBytes512_lt (st : Hash8) : ∀ b ∈ digestBytes512 st, b < 256 := by
  intro b hb
  simp only [digestBytes512, List.mem_append] at hb
  rcases hb with ((((((h | h) | h) | h) | h) | h) | h) | h <;> exact bytesOfWord64_lt _ b h

theorem sha512_lt (msg : List Nat) : ∀ b ∈ sha512 msg, b < 256 :=
  fun b hb => digestBytes512_lt _ b hb

theorem digestBytes512_length (st : Hash8) : (digestBytes512 st).length = 64 := by
  simp [digestBytes512, bytesOfWord64]

theorem sha512_length (msg : List Nat) : (sha512 msg).length = 64 :=
  digestBytes512_length _

theorem hmacSha512_length (key msg : List Nat) : (hmacSha512 key msg).length = 64 := by
  unfold hmacSha512
  exact sha512_length _

theorem hmacSha512_lt (key msg : List Nat) : ∀ b ∈ hmacSha512 key msg, b < 256 := by
  unfold hmacSha512
  exact sha512_lt _

theorem xorBytes_length (a b : List Nat) : (xorBytes a b).length = min a.length b.length := by
  simp [xorBytes]

theorem xorBytes_mem (a : List Nat) : ∀ (b : List Nat), ∀ x ∈ xorBytes a b,
    ∃ p ∈ a, ∃ q ∈ b, x = p ^^^ q := by
  induction a with
  | nil => intro b x hx; simp [xorBytes] at hx
  | cons p ps ih =>
    intro b x hx
    cases b with
    | nil => simp [xorBytes] at hx
    | cons q qs =>
      rcases (by simpa [xorBytes] using hx : x = p ^^^ q ∨ x ∈ xorBytes ps qs) with rfl | hx2
      · exact ⟨p, by simp, q, by simp, rfl⟩
      · obtain ⟨p2, hp2, q2, hq2, rfl⟩ := ih qs x hx2
        exact ⟨p2, by simp [hp2], q2, by simp [hq2], rfl⟩

theorem xor_lt_256 (a b : Nat) (ha : a < 256) (hb : b < 256) : a ^^^ b < 256 := by
  have e : (2 : Nat) ^ 8 = 256 := by norm_num
  exact e ▸ Nat.xor_lt_two_pow (e.symm ▸ ha) (e.symm ▸ hb)

theorem pbkdf2Aux_length (password : List Nat) : ∀ (n : Nat) (u acc : List Nat),
    acc.length = 64 → (pbkdf2Aux password n u acc).length = 64 := by
  intro n
  induction n with
  | zero => intro u acc hacc; exact hacc
  | succ n ih =>
    intro u acc hacc
    show (pbkdf2Aux password n (hmacSha512 password u)
      (xorBytes acc (hmacSha512 password u))).length = 64
    exact ih _ _ (by rw [xorBytes_length, hacc, hmacSha512_length]; rfl)

theorem pbkdf2Aux_lt (password : List Nat) : ∀ (n : Nat) (u acc : List Nat),
    (∀ b ∈ acc, b < 256) → ∀ b ∈ pbkdf2Aux password n u acc, b < 256 := by
  intro n
  induction n with
  | zero => intro u acc hacc; exact hacc
  | succ n ih =>
    intro u acc hacc
    show ∀ b ∈ pbkdf2Aux password n (hmacSha512 password u)
      (xorBytes acc (hmacSha512 password u)), b < 256
    refine ih _ _ ?_
    intro x hx
    obtain ⟨p, hp, q, hq, rfl⟩ := xorBytes_mem acc _ x hx
    exact xor_lt_256 p q (hacc p hp) (hmacSha512_lt password u q hq)

theorem pbkdf2_length (password salt : List Nat) (c : Nat) :
    (pbkdf2HmacSha512 password salt c).length = 64 := by
  unfold pbkdf2HmacSha512
  exact pbkdf2Aux_length password _ _ _ (hmacSha512_length _ _)

theorem pbkdf2_lt (password salt : List Nat) (c : Nat) :
    ∀ b ∈ pbkdf2HmacSha512 password salt c, b < 256 := by
  unfold pbkdf2HmacSha512
  exact pbkdf2Aux_lt password _ _ _ (hmacSha512_lt _ _)

/-! ## resolve_collection: the per-id loop is a map of first-match lookups. -/

theorem collectClaims_eq_map (rs : List Txo) : ∀ (cids : List String),
    collectClaims rs cids = cids.map (fun cid => firstMatching cid rs) := by
  intro cids
  induction cids with
  | nil => rfl
  | cons cid cids ih => simp only [collectClaims, ih, List.map_cons]

/-- Whitespace word count of any successfully generated phrase is exactly 12. -/
theorem wordCountOn (ws : List (List Char)) (d : Char) (lang : String)
    (hw : wordlistOf lang = some ws) (hdl : delimiter lang = d)
    (hgood : ∀ w ∈ ws, goodWord w) (hlen : ws.length = 2048) (hd : isSpc d = true)
    (entropy : Nat) (phrase : String) (hgen : generate_phrase lang entropy = some phrase) :
    wordCount phrase = 12 := by
  unfold generate_phrase at hgen
  rw [hw, hdl] at hgen
  have hgen2 : phrase = genOnList ws d entropy := by simpa using hgen.symm
  subst hgen2
  exact wordCount_genOnList ws d hgood hlen hd entropy

/-! ## The claims. -/

/-- C1: Round-trip law: for every supported language code `lang`, validating a
freshly generated phrase succeeds, i.e. `is_phrase_valid lang phrase = true`
for any phrase `generate_phrase` returns, whatever the entropy drawn. -/
theorem c1_round_trip (lang : String) (hlang : lang ∈ get_languages) (entropy : Nat)
    (phrase : String) (hgen : generate_phrase lang entropy = some phrase) :
    is_phrase_valid lang phrase = true := by
  rcases (by simpa [get_languages, languages] using hlang :
      lang = "en" ∨ lang = "fr" ∨ lang = "it" ∨ lang = "ja" ∨ lang = "pt" ∨ lang = "zh")
    with rfl | rfl | rfl | rfl | rfl | rfl
  · exact roundTripOn enList (Char.ofNat 32) "en" rfl rfl enList_good enList_nodup
      enList_length (by decide) entropy phrase hgen
  · exact roundTripOn frList (Char.ofNat 32) "fr" rfl rfl
      (genWords_good 24064 2048 (by omega) (by omega)) (genWords_nodup 24064 2048 (by omega))
      (genWords_length 24064 2048) (by decide) entropy phrase hgen
  · exact roundTripOn itList (Char.ofNat 32) "it" rfl rfl
      (genWords_good 26112 2048 (by omega) (by omega)) (genWords_nodup 26112 2048 (by omega))
      (genWords_length 26112 2048) (by decide) entropy phrase hgen
  · exact roundTripOn jaList (Char.ofNat 12288) "ja" rfl rfl jaList_good jaList_nodup
      jaList_length (by decide) entropy phrase hgen
  · exact roundTripOn ptList (Char.ofNat 32) "pt" rfl rfl
      (genWords_good 28160 2048 (by omega) (by omega)) (genWords_nodup 28160 2048 (by omega))
      (genWords_length 28160 2048) (by decide) entropy phrase hgen
  · exact roundTripOn zhList (Char.ofNat 32) "zh" rfl rfl
      (genWords_good 30208 2048 (by omega) (by omega)) (genWords_nodup 30208 2048 (by omega))
      (genWords_length 30208 2048) (by decide) entropy phrase hgen

/-- C1 witness: the round trip at language "en" and entropy 0. -/
theorem c1_round_trip_witness :
    is_phrase_valid "en" (genOnList enList (Char.ofNat 32) 0) = true :=
  c1_round_trip "en" (by decide) 0 (genOnList enList (Char.ofNat 32) 0) rfl

/-- C3: `get_languages` is exactly the compiled-in set of 6 language codes, and
every supported code's wordlist holds exactly 2048 pairwise-distinct entries
(the model wordlists are immutable definitions, so the invariant is
lifetime-stable). -/
theorem c3_wordlists (lang : String) (hlang : lang ∈ get_languages) :
    get_languages = ["en", "fr", "it", "ja", "pt", "zh"] ∧
    get_languages.length = 6 ∧
    ∃ ws, wordlistOf lang = some ws ∧ ws.length = 2048 ∧ ws.Nodup := by
  refine ⟨rfl, rfl, ?_⟩
  rcases (by simpa [get_languages, languages] using hlang :
      lang = "en" ∨ lang = "fr" ∨ lang = "it" ∨ lang = "ja" ∨ lang = "pt" ∨ lang = "zh")
    with rfl | rfl | rfl | rfl | rfl | rfl
  · exact ⟨enList, rfl, enList_length, enList_nodup⟩
  · exact ⟨frList, rfl, genWords_length 24064 2048, genWords_nodup 24064 2048 (by omega)⟩
  · exact ⟨itList, rfl, genWords_length 26112 2048, genWords_nodup 26112 2048 (by omega)⟩
  · exact ⟨jaList, rfl, jaList_length, jaList_nodup⟩
  · exact ⟨ptList, rfl, genWords_length 28160 2048, genWords_nodup 28160 2048 (by omega)⟩
  · exact ⟨zhList, rfl, genWords_length 30208 2048, genWords_nodup 30208 2048 (by omega)⟩

/-- C3 witness: the wordlist invariant at language "en". -/
theorem c3_wordlists_witness :
    get_languages = ["en", "fr", "it", "ja", "pt", "zh"] ∧
    get_languages.length = 6 ∧
    ∃ ws, wordlistOf "en" = some ws ∧ ws.length = 2048 ∧ ws.Nodup :=
  c3_wordlists "en" (by decide)

/-- C4: validation is invariant under NFKD-equal inputs, and concretely the two
distinct Unicode encodings of the Japanese phrase るいじ りんご both validate as
true under language ja. -/
theorem c4_normalization (lang p1 p2 : String) (h : nfkdStr p1.data = nfkdStr p2.data) :
    is_phrase_valid lang p1 = is_phrase_valid lang p2 ∧
    is_phrase_valid "ja" jaPhraseDecomposed = true ∧
    is_phrase_valid "ja" jaPhrasePrecomposed = true ∧
    jaPhraseDecomposed ≠ jaPhrasePrecomposed := by
  refine ⟨?_, by decide!, by decide!, by decide⟩
  unfold is_phrase_valid
  cases hw : wordlistOf lang with
  | none => rfl
  | some ws => exact validOnList_nfkd_inv ws p1 p2 h

/-- C4 witness: the invariance applied to the two concrete encodings of the
Japanese phrase, whose normalizations are byte-identical. -/
theorem c4_normalization_witness :
    is_phrase_valid "ja" jaPhraseDecomposed = is_phrase_valid "ja" jaPhrasePrecomposed ∧
    is_phrase_valid "ja" jaPhraseDecomposed = true ∧
    is_phrase_valid "ja" jaPhrasePrecomposed = true ∧
    jaPhraseDecomposed ≠ jaPhrasePrecomposed :=
  c4_normalization "ja" jaPhraseDecomposed jaPhrasePrecomposed (by decide)

/-- C5: `is_phrase_valid` is total and defensive: it is a Bool-valued function
on all inputs (never raises, by construction of the model), and every bad
input yields false: any unsupported language code, the empty phrase, any
malformed phrase (one with a word absent from the language's wordlist,
wherever it occurs), and any checksum-mismatched phrase (all words present but
the reassembled bits failing the recomputed-checksum comparison). -/
theorem c5_total_defensive (lang phrase : String) (hout : lang ∉ get_languages) :
    is_phrase_valid lang phrase = false ∧
    (∀ l p : String, is_phrase_valid l p = true ∨ is_phrase_valid l p = false) ∧
    (∀ l : String, is_phrase_valid l "" = false) ∧
    (∀ (l p : String) (ws : List (List Char)) (w : List Char),
      wordlistOf l = some ws → w ∈ wordSplit (nfkdStr p.data) → w ∉ ws →
      is_phrase_valid l p = false) ∧
    (∀ (l p : String) (ws : List (List Char)) (idxs : List Nat),
      wordlistOf l = some ws →
      indicesOf ws (wordSplit (nfkdStr p.data)) = some idxs →
      packIndices idxs % 2 ^ (11 * (wordSplit (nfkdStr p.data)).length / 33) ≠
        checksumOf (bigEndBytes ((11 * (wordSplit (nfkdStr p.data)).length
            - 11 * (wordSplit (nfkdStr p.data)).length / 33) / 8)
          (packIndices idxs / 2 ^ (11 * (wordSplit (nfkdStr p.data)).length / 33)))
          (11 * (wordSplit (nfkdStr p.data)).length / 33) →
      is_phrase_valid l p = false) := by
  refine ⟨?_, fun l p => ?_, fun l => is_phrase_valid_empty l,
    fun l p ws w hws hw habs => ?_, fun l p ws idxs hws hidx hbad => ?_⟩
  · unfold is_phrase_valid
    rw [wordlistOf_eq_none lang (by simpa [get_languages] using hout)]
  · cases is_phrase_valid l p
    · exact Or.inr rfl
    · exact Or.inl rfl
  · unfold is_phrase_valid
    rw [hws]
    exact validOnList_absent ws p w hw habs
  · unfold is_phrase_valid
    rw [hws]
    exact validOnList_checksum_mismatch ws p idxs hidx hbad

/-- C5 witness: the defensive contract at the unsupported code "xx". -/
theorem c5_total_defensive_witness :
    is_phrase_valid "xx" "foo" = false ∧
    (∀ l p : String, is_phrase_valid l p = true ∨ is_phrase_valid l p = false) ∧
    (∀ l : String, is_phrase_valid l "" = false) ∧
    (∀ (l p : String) (ws : List (List Char)) (w : List Char),
      wordlistOf l = some ws → w ∈ wordSplit (nfkdStr p.data) → w ∉ ws →
      is_phrase_valid l p = false) ∧
    (∀ (l p : String) (ws : List (List Char)) (idxs : List Nat),
      wordlistOf l = some ws →
      indicesOf ws (wordSplit (nfkdStr p.data)) = some idxs →
      packIndices idxs % 2 ^ (11 * (wordSplit (nfkdStr p.data)).length / 33) ≠
        checksumOf (bigEndBytes ((11 * (wordSplit (nfkdStr p.data)).length
            - 11 * (wordSplit (nfkdStr p.data)).length / 33) / 8)
          (packIndices idxs / 2 ^ (11 * (wordSplit (nfkdStr p.data)).length / 33)))
          (11 * (wordSplit (nfkdStr p.data)).length / 33) →
      is_phrase_valid l p = false) :=
  c5_total_defensive "xx" "foo" (by decide)

/-- C6: the concrete English validation cases of the test suite: the empty
phrase, an unknown word, and two known words glued without a delimiter are all
invalid; "awesome ball" is valid. -/
theorem c6_concrete_validation :
    is_phrase_valid "en" "" = false ∧
    is_phrase_valid "en" "foo" = false ∧
    is_phrase_valid "en" "awesomeball" = false ∧
    is_phrase_valid "en" "awesome ball" = true := by
  refine ⟨rfl, ?_, ?_, by decide!⟩
  · show validOnList enList "foo" = false
    exact validOnList_single_absent enList "foo".data "foo" (by decide) foo_not_mem
  · show validOnList enList "awesomeball" = false
    exact validOnList_single_absent enList "awesomeball".data "awesomeball" (by decide)
      awesomeball_not_mem

/-- C7: every successfully generated phrase has word count exactly
(128 + 4) / 11 = 12 (entropy bits + checksum bits over 11), hence at least 11
and at least 12 words, for every supported language and every entropy. -/
theorem c7_generated_length (lang : String) (hlang : lang ∈ get_languages) (entropy : Nat)
    (phrase : String) (hgen : generate_phrase lang entropy = some phrase) :
    wordCount phrase = (128 + 4) / 11 ∧ 11 ≤ wordCount phrase ∧ 12 ≤ wordCount phrase := by
  have h12 : wordCount phrase = 12 := by
    rcases (by simpa [get_languages, languages] using hlang :
        lang = "en" ∨ lang = "fr" ∨ lang = "it" ∨ lang = "ja" ∨ lang = "pt" ∨ lang = "zh")
      with rfl | rfl | rfl | rfl | rfl | rfl
    · exact wordCountOn enList (Char.ofNat 32) "en" rfl rfl enList_good enList_length
        (by decide) entropy phrase hgen
    · exact wordCountOn frList (Char.ofNat 32) "fr" rfl rfl
        (genWords_good 24064 2048 (by omega) (by omega)) (genWords_length 24064 2048)
        (by decide) entropy phrase hgen
    · exact wordCountOn itList (Char.ofNat 32) "it" rfl rfl
        (genWords_good 26112 2048 (by omega) (by omega)) (genWords_length 26112 2048)
        (by decide) entropy phrase hgen
    · exact wordCountOn jaList (Char.ofNat 12288) "ja" rfl rfl jaList_good jaList_length
        (by decide) entropy phrase hgen
    · exact wordCountOn ptList (Char.ofNat 32) "pt" rfl rfl
        (genWords_good 28160 2048 (by omega) (by omega)) (genWords_length 28160 2048)
        (by decide) entropy phrase hgen
    · exact wordCountOn zhList (Char.ofNat 32) "zh" rfl rfl
        (genWords_good 30208 2048 (by omega) (by omega)) (genWords_length 30208 2048)
        (by decide) entropy phrase hgen
  rw [h12]
  norm_num

/-- C7 witness: the generated word count at language "en" and entropy 0. -/
theorem c7_generated_length_witness :
    wordCount (genOnList enList (Char.ofNat 32) 0) = (128 + 4) / 11 ∧
    11 ≤ wordCount (genOnList enList (Char.ofNat 32) 0) ∧
    12 ≤ wordCount (genOnList enList (Char.ofNat 32) 0) :=
  c7_generated_length "en" (by decide) 0 (genOnList enList (Char.ofNat 32) 0) rfl

/-- C8: `derive_key_from_phrase` is pure and total on arbitrary text: it is a
function of the two strings alone (so byte-identical across repeated calls),
performs no wordlist lookup by construction, and always returns 64 bytes, each
below 256. -/
theorem c8_derive_total (phrase passphrase : String) :
    (derive_key_from_phrase phrase passphrase).length = 64 ∧
    ∀ b ∈ derive_key_from_phrase phrase passphrase, b < 256 := by
  constructor
  · unfold derive_key_from_phrase
    exact pbkdf2_length _ _ _
  · unfold derive_key_from_phrase
    exact pbkdf2_lt _ _ _

/-- C9: `maybe_broadcast_or_release` in preview mode releases the transaction
and never attempts broadcast; outside preview mode, any exception of broadcast
or of the blocking wait leads to a release and the same exception re-raised,
and the success paths release nothing. -/
theorem c9_broadcast_release {ε : Type} (blocking : Bool) (b w : Option ε) (e : ε) :
    maybe_broadcast_or_release true blocking b w = ⟨true, false, none⟩ ∧
    maybe_broadcast_or_release false blocking (some e) w = ⟨true, true, some e⟩ ∧
    maybe_broadcast_or_release false true none (some e) = ⟨true, true, some e⟩ ∧
    maybe_broadcast_or_release false true (none : Option ε) none = ⟨false, true, none⟩ ∧
    maybe_broadcast_or_release false false none w = ⟨false, true, none⟩ :=
  ⟨rfl, rfl, rfl, rfl, rfl⟩

/-- C10: `resolve_collection` takes the slice of up to `page_size` ids starting
at `offset`; on search success it returns, in request order, one entry per
sliced id holding the first matching result or none; a failed (non-cancelled)
search yields the empty list, and a cancellation propagates as an error. -/
theorem c10_resolve_collection (ids : List String) (offset page_size : Nat)
    (search : List String -> SearchOutcome Txo) (rs : List Txo)
    (hok : search ((ids.drop offset).take page_size) = SearchOutcome.ok rs) :
    resolve_collection ids offset page_size search
      = Except.ok (((ids.drop offset).take page_size).map (fun cid => firstMatching cid rs)) ∧
    ((ids.drop offset).take page_size).length ≤ page_size ∧
    (∀ s2 : List String -> SearchOutcome Txo,
      s2 ((ids.drop offset).take page_size) = SearchOutcome.failed →
      resolve_collection ids offset page_size s2 = Except.ok []) ∧
    (∀ s3 : List String -> SearchOutcome Txo,
      s3 ((ids.drop offset).take page_size) = SearchOutcome.cancelled →
      resolve_collection ids offset page_size s3 = Except.error ()) := by
  refine ⟨?_, ?_, ?_, ?_⟩
  · simp only [resolve_collection, hok, collectClaims_eq_map]
  · exact List.length_take_le page_size _
  · intro s2 h2
    simp only [resolve_collection, h2]
  · intro s3 h3
    simp only [resolve_collection, h3]

/-- C10 witness: the collection ["a", "b", "c"] resolved at offset 1 with page
size 1 against a search returning one matching and one non-matching result. -/
theorem c10_resolve_collection_witness :
    resolve_collection ["a", "b", "c"] 1 1 (fun _ => SearchOutcome.ok [⟨"x"⟩, ⟨"b"⟩])
      = Except.ok ((((["a", "b", "c"] : List String).drop 1).take 1).map
          (fun cid => firstMatching cid [⟨"x"⟩, ⟨"b"⟩])) ∧
    ((((["a", "b", "c"] : List String).drop 1).take 1)).length ≤ 1 ∧
    (∀ s2 : List String -> SearchOutcome Txo,
      s2 ((((["a", "b", "c"] : List String).drop 1).take 1)) = SearchOutcome.failed →
      resolve_collection ["a", "b", "c"] 1 1 s2 = Except.ok []) ∧
    (∀ s3 : List String -> SearchOutcome Txo,
      s3 ((((["a", "b", "c"] : List String).drop 1).take 1)) = SearchOutcome.cancelled →
      resolve_collection ["a", "b", "c"] 1 1 s3 = Except.error ()) :=
  c10_resolve_collection ["a", "b", "c"] 1 1 (fun _ => SearchOutcome.ok [⟨"x"⟩, ⟨"b"⟩])
    [⟨"x"⟩, ⟨"b"⟩] rfl
